import Mathlib

/-!
# Verification of `hunter.py` (azure-zombie-hunter)

A shallow embedding of the zombie-disk reporting pipeline in `src/hunter.py`:
resource-group extraction, money formatting, zombie filtering and
normalisation, cost estimation, stable descending sort, aggregation, table
rendering, and the top-level control flow of `main` (success, "no zombies"
and failure paths).

Python floats are modelled as exact rationals (`ℚ`); Python's `str.strip("/")`
/ `str.split("/")` / `str.lower()` are modelled by the corresponding Lean
string operations.  The provider's disk descriptors are modelled as records of
optional fields (`none` covers both an absent attribute and a `None` value,
which the source treats identically via `getattr(..., default) or default`).
-/

namespace Hunter

/-- A raw disk descriptor as yielded by the provider iterator: `id`, `name`,
`disk_size_gb` and `disk_state` may each be absent or `None`. -/
structure RawDisk where
  name : Option String
  disk_size_gb : Option Int
  id : Option String
  disk_state : Option String
deriving DecidableEq, Repr

/-- A normalised, costed zombie row `(disk_name, size_gb, resource_group,
monthly_cost)` — the tuples accumulated in `zombies` by `main`. -/
structure Zombie where
  name : String
  size_gb : Int
  rg : String
  cost : ℚ
deriving DecidableEq, Repr

/-- Python's `s.strip("/")`: remove leading and trailing `'/'` characters. -/
def stripSlashes (s : String) : String :=
  String.mk ((((s.toList.dropWhile (· = '/')).reverse.dropWhile (· = '/')).reverse))

/-- Python's `s.split("/")` on the character list of `s`: split on every
`'/'`, keeping empty fragments (so the empty string yields `[""]`). -/
def splitSlashAux : List Char → List Char → List String
  | [], acc => [String.mk acc.reverse]
  | c :: rest, acc =>
    if c = '/' then String.mk acc.reverse :: splitSlashAux rest []
    else splitSlashAux rest (c :: acc)

/-- Python's `s.split("/")`. -/
def splitSlash (s : String) : List String :=
  splitSlashAux s.toList []

/-- Python's `s.lower()` (ASCII range, which is all the comparison against
`"resourcegroups"` can observe). -/
def lowerAscii (s : String) : String :=
  String.mk (s.toList.map Char.toLower)

/-- The scan loop of `extract_resource_group`: find the first segment whose
lowercasing is `"resourcegroups"` that has a following segment, and return
that following segment; otherwise `"Unknown"`. -/
def findRG : List String → String
  | [] => "Unknown"
  | [_] => "Unknown"
  | p :: q :: rest =>
    if lowerAscii p = "resourcegroups" then q else findRG (q :: rest)

/-- `extract_resource_group` from `hunter.py`: extract the resource group name
from an Azure resource ID, or `"Unknown"`. -/
def extract_resource_group (resource_id : String) : String :=
  if resource_id = "" then "Unknown"
  else findRG (splitSlash (stripSlashes resource_id))

/-- Round a rational to the nearest integer, ties to even — the rounding used
by Python's fixed-point float formatting (`:.2f`), on the exact value.
Computed on the fraction `q.num / q.den`: the floor is `Int.fdiv`, and the
fractional remainder `m / den` is compared against `1/2` by comparing `2 * m`
with `den`. -/
def roundHalfEven (q : ℚ) : Int :=
  let d : Int := (q.den : Int)
  let f := Int.fdiv q.num d
  let m := Int.fmod q.num d
  if 2 * m < d then f
  else if d < 2 * m then f + 1
  else if f % 2 = 0 then f else f + 1

/-- Insert a `','` after every third character (input is the digit list in
reverse order), modelling the `,` grouping option of Python's format spec. -/
def insertCommas : List Char → List Char
  | a :: b :: c :: d :: rest => a :: b :: c :: ',' :: insertCommas (d :: rest)
  | l => l

/-- Decimal digits of `n` with thousands separators. -/
def digitsGrouped (n : Nat) : String :=
  String.mk ((insertCommas (toString n).toList.reverse).reverse)

/-- Two-digit zero-padded decimal rendering of `n < 100`. -/
def twoDigits (n : Nat) : String :=
  (if n < 10 then "0" else "") ++ toString n

/-- `format_money` from `hunter.py`: `f"${value:,.2f}"` — a dollar sign, the
value rounded to 2 decimals with thousands separators.  Modelled on the exact
rational value with round-half-even ties. -/
def format_money (value : ℚ) : String :=
  let cents := roundHalfEven (value * 100)
  let sign := if cents < 0 then "-" else ""
  let a := cents.natAbs
  "$" ++ sign ++ digitsGrouped (a / 100) ++ "." ++ twoDigits (a % 100)

/-- Python's `f"{value:.2f}"`: 2 decimals, no grouping (used for the rate in
the summary line). -/
def format_fixed2 (value : ℚ) : String :=
  let cents := roundHalfEven (value * 100)
  let sign := if cents < 0 then "-" else ""
  let a := cents.natAbs
  sign ++ toString (a / 100) ++ "." ++ twoDigits (a % 100)

/-- The normalisation performed in the body of `main`'s loop:
`name = disk.name or "Unnamed"`, `size_gb = int(getattr(disk, "disk_size_gb", 0) or 0)`,
`rg = extract_resource_group(getattr(disk, "id", "") or "")`,
`monthly_cost = size_gb * float(args.rate)`. -/
def normalizeDisk (rate : ℚ) (d : RawDisk) : Zombie :=
  { name := match d.name with
            | none => "Unnamed"
            | some s => if s = "" then "Unnamed" else s
  , size_gb := d.disk_size_gb.getD 0
  , rg := extract_resource_group (d.id.getD "")
  , cost := ((d.disk_size_gb.getD 0 : Int) : ℚ) * rate }

/-- One iteration of `main`'s loop: skip the disk unless
`disk_state == "Unattached"`, otherwise normalise it into a costed row. -/
def processDisk (rate : ℚ) (d : RawDisk) : Option Zombie :=
  if d.disk_state = some "Unattached" then some (normalizeDisk rate d) else none

/-- The whole accumulation loop of `main`: the costed rows appended to
`zombies`, in provider order. -/
def collectZombies (rate : ℚ) (disks : List RawDisk) : List Zombie :=
  disks.filterMap (processDisk rate)

/-- The zombie filter viewed at the record level (lines 104–106 of
`hunter.py`): keep exactly the records whose `disk_state` is the string
`"Unattached"`. -/
def zombieFilter (l : List RawDisk) : List RawDisk :=
  l.filter (fun d => d.disk_state = some "Unattached")

/-- The comparison underlying `zombies.sort(key=lambda x: x[3], reverse=True)`:
`a` may come before `b` exactly when `a`'s monthly cost is at least `b`'s. -/
def costGE (a b : Zombie) : Prop :=
  b.cost ≤ a.cost

instance : DecidableRel costGE := fun a b => inferInstanceAs (Decidable (b.cost ≤ a.cost))

instance : IsTotal Zombie costGE := ⟨fun a b => le_total b.cost a.cost⟩

instance : IsTrans Zombie costGE := ⟨fun _ _ _ h h' => le_trans h' h⟩

/-- `zombies.sort(key=lambda x: x[3], reverse=True)`: Python's sort is stable,
so the result is the unique stable descending-by-cost reordering; insertion
sort with the non-strict relation `costGE` computes exactly that. -/
def sortZombies (l : List Zombie) : List Zombie :=
  List.insertionSort costGE l

/-- `sum(r[3] for r in zombies)`. -/
def totalCost (l : List Zombie) : ℚ :=
  (l.map Zombie.cost).sum

/-! ## Table rendering (`make_table`)

The source renders rows of exactly four columns (`rows` is a list of
4-tuples and `headers` has four entries), so the `zip`-based width
computation and the `join`-based line assembly are embedded column by
column. -/

/-- The header row of `make_table`. -/
def headers : String × String × String × String :=
  ("Disk Name", "Size (GB)", "Resource Group", "Est. Monthly Cost")

/-- The stringified row `[name, str(size), rg, format_money(cost)]`. -/
def strRow (z : Zombie) : String × String × String × String :=
  (z.name, toString z.size_gb, z.rg, format_money z.cost)

/-- `max` over a nonempty collection, as a fold from its first element. -/
def maxFold (a : Nat) (l : List Nat) : Nat :=
  l.foldl max a

/-- The per-column widths: the maximum cell width over the header and all
stringified rows (`widths = [max(len(cell) for cell in col) for col in cols]`). -/
def widths (rows : List Zombie) : Nat × Nat × Nat × Nat :=
  ( maxFold headers.1.length (rows.map (fun z => (strRow z).1.length))
  , maxFold headers.2.1.length (rows.map (fun z => (strRow z).2.1.length))
  , maxFold headers.2.2.1.length (rows.map (fun z => (strRow z).2.2.1.length))
  , maxFold headers.2.2.2.length (rows.map (fun z => (strRow z).2.2.2.length)) )

/-- A run of `n` copies of `sep` padded cell-wide: `sep * (w + 2)`. -/
def sepRun (sep : Char) (n : Nat) : String :=
  String.mk (List.replicate n sep)

/-- `line(sep)`: `"+".join(sep * (w + 2) for w in widths).join(["+", "+"])`. -/
def borderLine (sep : Char) (ws : Nat × Nat × Nat × Nat) : String :=
  "+" ++ sepRun sep (ws.1 + 2) ++ "+" ++ sepRun sep (ws.2.1 + 2) ++ "+"
    ++ sepRun sep (ws.2.2.1 + 2) ++ "+" ++ sepRun sep (ws.2.2.2 + 2) ++ "+"

/-- One table cell `f" {c:<{w}} "`: the content left-justified in width `w`
between single spaces (content wider than `w` is never truncated). -/
def padCell (c : String) (w : Nat) : String :=
  " " ++ c ++ String.mk (List.replicate (w - c.length) ' ') ++ " "

/-- `row(cells)`: `"|" + "|".join(f" {c:<{w}} " for c, w in zip(cells, widths)) + "|"`. -/
def rowLine (cs : String × String × String × String) (ws : Nat × Nat × Nat × Nat) : String :=
  "|" ++ padCell cs.1 ws.1 ++ "|" ++ padCell cs.2.1 ws.2.1 ++ "|"
    ++ padCell cs.2.2.1 ws.2.2.1 ++ "|" ++ padCell cs.2.2.2 ws.2.2.2 ++ "|"

/-- The `out` list assembled by `make_table`: top border, header row, `'='`
border, one row per zombie, bottom border. -/
def tableLines (rows : List Zombie) : List String :=
  let ws := widths rows
  [borderLine '-' ws, rowLine headers ws, borderLine '=' ws]
    ++ rows.map (fun z => rowLine (strRow z) ws)
    ++ [borderLine '-' ws]

/-- `make_table`: the `out` lines joined with newlines. -/
def make_table (rows : List Zombie) : String :=
  String.intercalate "\n" (tableLines rows)

/-- The common length every table line turns out to have: the four column
widths plus two padding spaces per column plus the five `|`/`+` separators. -/
def totalWidth (rows : List Zombie) : Nat :=
  (widths rows).1 + (widths rows).2.1 + (widths rows).2.2.1 + (widths rows).2.2.2 + 13

/-! ## Top-level control flow of `main` -/

/-- The outcome of the external listing call, as observed by `main`'s `try`
block: either the full finite list of disks, or an exception raised after
some prefix of it was already consumed (the prefix's accumulated rows are
discarded — nothing has been printed yet when the loop is interrupted). -/
inductive Listing where
  | ok : List RawDisk → Listing
  | err : List RawDisk → String → Listing
deriving DecidableEq, Repr

/-- What a run of `main` produces: the lines printed to stdout, the lines
printed to stderr, and the returned completion code. -/
structure MainResult where
  stdout : List String
  stderr : List String
  exitCode : Int
deriving DecidableEq, Repr

/-- The static remediation guidance printed to stderr on failure. -/
def tipsText : String :=
  "\nTips:\n"
    ++ " - Ensure you can authenticate with DefaultAzureCredential:\n"
    ++ "   * az login\n"
    ++ "   * or use Managed Identity / VS Code Azure extension / environment variables\n"
    ++ " - Verify the subscription ID is correct.\n"

/-- The summary line printed after the table. -/
def summaryLine (rate total : ℚ) : String :=
  "\nTotal estimated monthly waste: " ++ format_money total
    ++ " (rate: $" ++ format_fixed2 rate ++ "/GB-month)"

/-- `main` from `hunter.py`: filter and normalise the listed disks; on an
empty result print the success message and return 0; otherwise sort by
descending cost, print the table and the total, and return 0; if the listing
raises, print the error and the tips to stderr and return 1. -/
def mainRun (rate : ℚ) (listing : Listing) : MainResult :=
  match listing with
  | .err _ msg => ⟨[], ["[ERROR] " ++ msg, tipsText], 1⟩
  | .ok disks =>
    let zombies := collectZombies rate disks
    if zombies = [] then ⟨["No zombies detected. Good job!"], [], 0⟩
    else
      let sorted := sortZombies zombies
      ⟨[make_table sorted, summaryLine rate (totalCost sorted)], [], 0⟩

/-! ## Helper lemmas -/

/-- The accumulation loop is the zombie filter followed by normalisation. -/
theorem collectZombies_eq_filter_map (rate : ℚ) (l : List RawDisk) :
    collectZombies rate l = (zombieFilter l).map (normalizeDisk rate) := by
  induction l with
  | nil => rfl
  | cons d rest ih =>
    by_cases h : d.disk_state = some "Unattached"
    · simp [collectZombies, zombieFilter, List.filterMap_cons, List.filter_cons,
        processDisk, h] at ih ⊢
      exact ih
    · simp [collectZombies, zombieFilter, List.filterMap_cons, List.filter_cons,
        processDisk, h] at ih ⊢
      exact ih

/-- `format_money` renders an exact zero as `"$0.00"`. -/
theorem format_money_zero : format_money 0 = "$0.00" := by
  simp only [format_money, zero_mul]
  decide

/-- Case analysis of the `extract_resource_group` scan: either no segment
with a successor lowercases to `"resourcegroups"` (the followed segments
are exactly those of `dropLast`) and the scan yields `"Unknown"`, or the
list decomposes around the first such segment and the scan yields the
segment after it. -/
theorem findRG_cases (l : List String) :
    (findRG l = "Unknown" ∧ ∀ p ∈ l.dropLast, lowerAscii p ≠ "resourcegroups") ∨
    (∃ l₁ r x l₂, l = l₁ ++ r :: x :: l₂ ∧ lowerAscii r = "resourcegroups" ∧
      (∀ p ∈ l₁, lowerAscii p ≠ "resourcegroups") ∧ findRG l = x) := by
  induction l with
  | nil => exact Or.inl ⟨rfl, by simp⟩
  | cons p rest ih =>
    cases rest with
    | nil => exact Or.inl ⟨rfl, by simp⟩
    | cons q rest' =>
      by_cases hp : lowerAscii p = "resourcegroups"
      · exact Or.inr ⟨[], p, q, rest', by simp, hp, by simp, by simp [findRG, hp]⟩
      · rcases ih with ⟨h1, h2⟩ | ⟨l₁, r, x, l₂, heq, hr, hnone, hfind⟩
        · refine Or.inl ⟨by simp [findRG, hp, h1], ?_⟩
          intro a ha
          rcases (by simpa using ha : a = p ∨ a ∈ (q :: rest').dropLast) with rfl | ha'
          · exact hp
          · exact h2 a ha'
        · refine Or.inr ⟨p :: l₁, r, x, l₂, by simp [heq], hr, ?_, by simp [findRG, hp, hfind]⟩
          intro a ha
          rcases List.mem_cons.mp ha with rfl | ha'
          · exact hp
          · exact hnone a ha'

/-- Inserting `x` with `orderedInsert costGE` passes only over elements of
strictly greater cost, so the equal-cost subsequences are preserved: the
filter at `x`'s own cost gains `x` at the front, every other cost class is
untouched. -/
theorem filter_orderedInsert_cost (x : Zombie) (l : List Zombie) (c : ℚ) :
    (List.orderedInsert costGE x l).filter (fun z => z.cost = c) =
      if x.cost = c then x :: l.filter (fun z => z.cost = c)
      else l.filter (fun z => z.cost = c) := by
  induction l with
  | nil =>
    by_cases hx : x.cost = c <;> simp [List.orderedInsert, List.filter_cons, hx]
  | cons y ys ih =>
    rw [List.orderedInsert]
    by_cases hxy : costGE x y
    · by_cases hx : x.cost = c <;> simp [hxy, List.filter_cons, hx]
    · have hlt : x.cost < y.cost := lt_of_not_le hxy
      by_cases hx : x.cost = c
      · have hy : y.cost ≠ c := by
          intro hy
          exact absurd (hx ▸ hy ▸ hlt) (lt_irrefl _)
        simp [hxy, List.filter_cons, hx, hy, ih]
      · by_cases hy : y.cost = c <;> simp [hxy, List.filter_cons, hx, hy, ih]

/-- Insertion sort with `costGE` preserves every equal-cost subsequence. -/
theorem filter_sortZombies_cost (l : List Zombie) (c : ℚ) :
    (sortZombies l).filter (fun z => z.cost = c) = l.filter (fun z => z.cost = c) := by
  induction l with
  | nil => rfl
  | cons x xs ih =>
    rw [sortZombies, List.insertionSort]
    rw [show List.insertionSort costGE xs = sortZombies xs from rfl]
    rw [filter_orderedInsert_cost]
    by_cases hx : x.cost = c <;> simp [List.filter_cons, hx, ih]

/-- The seed of the width fold is a lower bound of the result. -/
theorem le_maxFold (a : Nat) (l : List Nat) : a ≤ maxFold a l := by
  induction l generalizing a with
  | nil => exact le_refl a
  | cons b bs ih => exact le_trans (le_max_left a b) (ih (max a b))

/-- Every folded element is a lower bound of the width fold's result. -/
theorem mem_le_maxFold {x : Nat} {l : List Nat} (h : x ∈ l) (a : Nat) :
    x ≤ maxFold a l := by
  induction l generalizing a with
  | nil => cases h
  | cons b bs ih =>
    rcases List.mem_cons.mp h with rfl | h'
    · exact le_trans (le_max_right a x) (le_maxFold _ bs)
    · exact ih h' (max a b)

/-- A separator run has exactly the requested length. -/
theorem length_sepRun (sep : Char) (n : Nat) : (sepRun sep n).length = n := by
  rw [sepRun, String.length_mk, List.length_replicate]

/-- A padded cell occupies exactly `w + 2` characters when the content
fits, i.e. the cell is padded, never truncated. -/
theorem length_padCell {c : String} {w : Nat} (h : c.length ≤ w) :
    (padCell c w).length = w + 2 := by
  simp only [padCell, String.length_append, String.length_mk, List.length_replicate,
    show (" " : String).length = 1 from rfl]
  omega

/-- Every border line has the total table width. -/
theorem length_borderLine (sep : Char) (ws : Nat × Nat × Nat × Nat) :
    (borderLine sep ws).length = ws.1 + ws.2.1 + ws.2.2.1 + ws.2.2.2 + 13 := by
  simp only [borderLine, String.length_append, length_sepRun,
    show ("+" : String).length = 1 from rfl]
  omega

/-- Every content row whose cells fit their column widths has the total
table width. -/
theorem length_rowLine {cs : String × String × String × String}
    {ws : Nat × Nat × Nat × Nat}
    (h1 : cs.1.length ≤ ws.1) (h2 : cs.2.1.length ≤ ws.2.1)
    (h3 : cs.2.2.1.length ≤ ws.2.2.1) (h4 : cs.2.2.2.length ≤ ws.2.2.2) :
    (rowLine cs ws).length = ws.1 + ws.2.1 + ws.2.2.1 + ws.2.2.2 + 13 := by
  simp only [rowLine, String.length_append, length_padCell h1, length_padCell h2,
    length_padCell h3, length_padCell h4,
    show ("|" : String).length = 1 from rfl]
  omega

/-- The header cells fit their column widths. -/
theorem header_le_widths (rows : List Zombie) :
    headers.1.length ≤ (widths rows).1 ∧ headers.2.1.length ≤ (widths rows).2.1 ∧
    headers.2.2.1.length ≤ (widths rows).2.2.1 ∧
    headers.2.2.2.length ≤ (widths rows).2.2.2 := by
  rw [widths]
  exact ⟨le_maxFold _ _, le_maxFold _ _, le_maxFold _ _, le_maxFold _ _⟩

/-- Every row's cells fit their column widths. -/
theorem cell_le_widths {z : Zombie} {rows : List Zombie} (hz : z ∈ rows) :
    (strRow z).1.length ≤ (widths rows).1 ∧ (strRow z).2.1.length ≤ (widths rows).2.1 ∧
    (strRow z).2.2.1.length ≤ (widths rows).2.2.1 ∧
    (strRow z).2.2.2.length ≤ (widths rows).2.2.2 := by
  rw [widths]
  refine ⟨?_, ?_, ?_, ?_⟩
  · exact mem_le_maxFold (List.mem_map_of_mem (fun z => (strRow z).1.length) hz) _
  · exact mem_le_maxFold (List.mem_map_of_mem (fun z => (strRow z).2.1.length) hz) _
  · exact mem_le_maxFold (List.mem_map_of_mem (fun z => (strRow z).2.2.1.length) hz) _
  · exact mem_le_maxFold (List.mem_map_of_mem (fun z => (strRow z).2.2.2.length) hz) _

end Hunter

namespace Hunter

/-! ## Claim theorems -/

/-- C9: with column widths computed as the maximum content width per
column over the header and all rows, every rendered line — the borders,
the header row, and each data row — has the same total length, and
`make_table` is exactly those lines joined by newlines. -/
theorem make_table_lines_uniform (rows : List Zombie) :
    (∀ s ∈ tableLines rows, s.length = totalWidth rows) ∧
    make_table rows = String.intercalate "\n" (tableLines rows) := by
  refine ⟨?_, rfl⟩
  intro s hs
  have hmem := hs
  rw [tableLines] at hmem
  simp only [List.mem_append, List.mem_cons, List.mem_singleton,
    List.not_mem_nil, or_false, List.mem_map] at hmem
  rcases hmem with ((rfl | rfl | rfl) | ⟨z, hz, rfl⟩) | rfl
  · rw [totalWidth, length_borderLine]
  · obtain ⟨h1, h2, h3, h4⟩ := header_le_widths rows
    rw [totalWidth, length_rowLine h1 h2 h3 h4]
  · rw [totalWidth, length_borderLine]
  · obtain ⟨h1, h2, h3, h4⟩ := cell_le_widths hz
    rw [totalWidth, length_rowLine h1 h2 h3 h4]
  · rw [totalWidth, length_borderLine]

/-- C10: a disk whose state is exactly `"Unattached"` but whose size field
is absent, `None`, or `0` is still turned into a row — with size 0, exact
cost 0, displayed as `"$0.00"` — prepended to the collected rows rather
than dropped, and it contributes 0 to the total. -/
theorem zero_size_unattached_included (rate : ℚ) (d : RawDisk) (rest : List RawDisk)
    (hstate : d.disk_state = some "Unattached") (hsize : d.disk_size_gb.getD 0 = 0) :
    processDisk rate d = some (normalizeDisk rate d) ∧
    (normalizeDisk rate d).size_gb = 0 ∧
    (normalizeDisk rate d).cost = 0 ∧
    format_money (normalizeDisk rate d).cost = "$0.00" ∧
    collectZombies rate (d :: rest) = normalizeDisk rate d :: collectZombies rate rest ∧
    totalCost (collectZombies rate (d :: rest)) = totalCost (collectZombies rate rest) := by
  have hp : processDisk rate d = some (normalizeDisk rate d) := by
    simp [processDisk, hstate]
  have hc : (normalizeDisk rate d).cost = 0 := by
    simp [normalizeDisk, hsize]
  have hcons : collectZombies rate (d :: rest) =
      normalizeDisk rate d :: collectZombies rate rest := by
    simp [collectZombies, List.filterMap_cons, hp]
  refine ⟨hp, by simp [normalizeDisk, hsize], hc, by rw [hc]; exact format_money_zero,
    hcons, ?_⟩
  rw [hcons, totalCost, List.map_cons, List.sum_cons, hc, zero_add]
  rfl

/-- C4: the aggregator's output is a permutation of its input, sorted by
monthly cost in descending order, and the sort is stable: for every cost
value, the subsequence of disks having that cost is exactly the one of the
input, in the input's relative order. -/
theorem sortZombies_descending_stable (l : List Zombie) :
    (sortZombies l).Perm l ∧
    (sortZombies l).Sorted costGE ∧
    (∀ c : ℚ, (sortZombies l).filter (fun z => z.cost = c) =
      l.filter (fun z => z.cost = c)) :=
  ⟨List.perm_insertionSort costGE l, List.sorted_insertionSort costGE l,
    fun c => filter_sortZombies_cost l c⟩

/-- C3: `extract_resource_group` is total (it is a plain function into
`String`), and after stripping leading/trailing `'/'` and splitting on
`'/'` it returns the segment immediately after the first case-insensitive
`"resourceGroups"` segment that has a successor; on the empty identifier,
or when no such followed segment exists, it returns `"Unknown"`. -/
theorem extract_resource_group_spec (s : String) :
    (extract_resource_group s = "Unknown" ∧
      (s = "" ∨ ∀ p ∈ (splitSlash (stripSlashes s)).dropLast, lowerAscii p ≠ "resourcegroups")) ∨
    (∃ l₁ r x l₂, splitSlash (stripSlashes s) = l₁ ++ r :: x :: l₂ ∧
      lowerAscii r = "resourcegroups" ∧ (∀ p ∈ l₁, lowerAscii p ≠ "resourcegroups") ∧
      s ≠ "" ∧ extract_resource_group s = x) := by
  by_cases hs : s = ""
  · exact Or.inl ⟨by simp [extract_resource_group, hs], Or.inl hs⟩
  · rcases findRG_cases (splitSlash (stripSlashes s)) with ⟨h1, h2⟩ |
      ⟨l₁, r, x, l₂, heq, hr, hnone, hfind⟩
    · exact Or.inl ⟨by simp [extract_resource_group, hs, h1], Or.inr h2⟩
    · exact Or.inr ⟨l₁, r, x, l₂, heq, hr, hnone, hs,
        by simp [extract_resource_group, hs, hfind]⟩

/-- C1: a disk record is retained by the zombie filter iff its
`disk_state` is exactly the string `"Unattached"`; a record with a missing
state is never retained; and the rows `main` accumulates are exactly the
retained records, normalised, in order. -/
theorem zombie_filter_retains_iff_unattached (rate : ℚ) (l : List RawDisk) (d : RawDisk) :
    (d ∈ zombieFilter l ↔ d ∈ l ∧ d.disk_state = some "Unattached") ∧
    (d.disk_state = none → d ∉ zombieFilter l) ∧
    collectZombies rate l = (zombieFilter l).map (normalizeDisk rate) := by
  refine ⟨?_, ?_, collectZombies_eq_filter_map rate l⟩
  · simp [zombieFilter, List.mem_filter]
  · intro hnone hmem
    simp [zombieFilter, List.mem_filter, hnone] at hmem

/-- C2: every costed row produced by `main`'s loop carries the exact
monthly cost `size_gb * rate`, with no rounding applied at computation
time (the cost field is the exact product in `ℚ`). -/
theorem collected_cost_exact (rate : ℚ) (disks : List RawDisk) (z : Zombie)
    (h : z ∈ collectZombies rate disks) : z.cost = (z.size_gb : ℚ) * rate := by
  obtain ⟨d, _, hz⟩ := List.mem_filterMap.mp h
  unfold processDisk at hz
  split at hz
  · cases Option.some.inj hz
    rfl
  · exact absurd hz (by simp)

/-- C5: the reported total is the sum of the individual monthly costs, and
it is invariant under reordering of the disks — in particular sorting
before summing (as `main` does) leaves the total unchanged. -/
theorem totalCost_order_invariant (l l' : List Zombie) (h : l.Perm l') :
    totalCost l = totalCost l' ∧ totalCost (sortZombies l) = totalCost l := by
  constructor
  · exact List.Perm.sum_eq (h.map Zombie.cost)
  · exact List.Perm.sum_eq ((List.perm_insertionSort costGE l).map Zombie.cost)

/-- C6: when the listing succeeds but contains no disk whose state is
`"Unattached"` (in particular when it is empty), `main` prints exactly the
single success message, no table, and returns 0. -/
theorem mainRun_no_zombies (rate : ℚ) (disks : List RawDisk)
    (h : ∀ d ∈ disks, d.disk_state ≠ some "Unattached") :
    mainRun rate (.ok disks) = ⟨["No zombies detected. Good job!"], [], 0⟩ := by
  have hz : collectZombies rate disks = [] := by
    rw [collectZombies, List.filterMap_eq_nil_iff]
    intro d hd
    simp [processDisk, h d hd]
  simp [mainRun, hz]

/-- C7: when the listing raises (with any prefix of disks already
consumed), `main` prints nothing to stdout — not even a partial table —
writes the error message plus the static remediation tips to stderr, and
returns 1; the listing is consulted exactly once, with no retry. -/
theorem mainRun_err_aborts (rate : ℚ) (consumed : List RawDisk) (msg : String) :
    mainRun rate (.err consumed msg) =
      ⟨[], ["[ERROR] " ++ msg, tipsText], 1⟩ :=
  rfl

/-- C8: the zombie filter is idempotent — filtering twice is filtering
once — and an already all-`"Unattached"` sequence is left unchanged. -/
theorem zombieFilter_idempotent (l : List RawDisk) :
    zombieFilter (zombieFilter l) = zombieFilter l ∧
    ((∀ d ∈ l, d.disk_state = some "Unattached") → zombieFilter l = l) := by
  constructor
  · simp [zombieFilter, List.filter_filter]
  · intro h
    rw [zombieFilter, List.filter_eq_self]
    intro d hd
    simp [h d hd]

/-! ## Witnesses: the claim theorems applied at concrete inputs -/

/-- Witness for C2: a 100 GB unattached disk at rate `3/2` yields a row
whose cost field is exactly `size_gb * rate`. -/
theorem collected_cost_exact_witness :
    (normalizeDisk (3/2) ⟨some "d1", some 100, none, some "Unattached"⟩).cost =
      ((normalizeDisk (3/2) ⟨some "d1", some 100, none, some "Unattached"⟩).size_gb : ℚ)
        * (3/2) :=
  collected_cost_exact (3/2) [⟨some "d1", some 100, none, some "Unattached"⟩] _
    (by simp [collectZombies, processDisk])

/-- Witness for C5 at a concrete two-element permutation. -/
theorem totalCost_order_invariant_witness :
    totalCost [⟨"a", 1, "g", 5⟩, ⟨"b", 2, "h", 7⟩] =
        totalCost [⟨"b", 2, "h", 7⟩, ⟨"a", 1, "g", 5⟩] ∧
      totalCost (sortZombies [⟨"a", 1, "g", 5⟩, ⟨"b", 2, "h", 7⟩]) =
        totalCost [⟨"a", 1, "g", 5⟩, ⟨"b", 2, "h", 7⟩] :=
  totalCost_order_invariant _ _
    (List.Perm.swap (⟨"b", 2, "h", 7⟩ : Zombie) (⟨"a", 1, "g", 5⟩ : Zombie) [])

/-- Witness for C6: a listing holding one attached disk produces exactly
the success message and completion code 0. -/
theorem mainRun_no_zombies_witness :
    mainRun 1 (.ok [⟨some "d2", some 50, none, some "Attached"⟩]) =
      ⟨["No zombies detected. Good job!"], [], 0⟩ :=
  mainRun_no_zombies 1 [⟨some "d2", some 50, none, some "Attached"⟩] (by decide)

/-- Witness for C10: an unattached disk with an absent size is reported
with size 0 and cost `$0.00` and leaves the total unchanged. -/
theorem zero_size_unattached_included_witness :
    processDisk 2 ⟨some "empty-disk", none, none, some "Unattached"⟩ =
        some (normalizeDisk 2 ⟨some "empty-disk", none, none, some "Unattached"⟩) ∧
      (normalizeDisk 2 ⟨some "empty-disk", none, none, some "Unattached"⟩).size_gb = 0 ∧
      (normalizeDisk 2 ⟨some "empty-disk", none, none, some "Unattached"⟩).cost = 0 ∧
      format_money (normalizeDisk 2 ⟨some "empty-disk", none, none, some "Unattached"⟩).cost
        = "$0.00" ∧
      collectZombies 2 [⟨some "empty-disk", none, none, some "Unattached"⟩] =
        normalizeDisk 2 ⟨some "empty-disk", none, none, some "Unattached"⟩ ::
          collectZombies 2 [] ∧
      totalCost (collectZombies 2 [⟨some "empty-disk", none, none, some "Unattached"⟩]) =
        totalCost (collectZombies 2 []) :=
  zero_size_unattached_included 2 ⟨some "empty-disk", none, none, some "Unattached"⟩ []
    rfl rfl

end Hunter
